import Mathlib

/-!
Verification of the encoding detection / codec core of `file-content-rs`.

Bytes are modelled as `Nat` values below 256 (the Rust `u8`), UTF-16 code
units as `Nat` values below 65536 (the Rust `u16`), and a Rust `String` as
the list of its Unicode scalar values (`Nat` values below 0x110000 that are
not surrogates).  All definitions are translated from the Rust source:
`src/constants.rs`, `src/utf16.rs`, `src/text_data.rs`, `src/encoding.rs`
and `src/file.rs`; the UTF-8 / UTF-16 validators model
`String::from_utf8` / `String::from_utf16` of the Rust standard library,
and `utf8Encode` models `str::as_bytes` on a validated string.
-/

namespace FileContentRs

/-- Source `src/constants.rs`: `UTF8_BOM = b"\xEF\xBB\xBF"`. -/
def UTF8_BOM : List Nat := [0xEF, 0xBB, 0xBF]

/-- Source `src/constants.rs`: `UTF16BE_BOM = b"\xFE\xFF"`. -/
def UTF16BE_BOM : List Nat := [0xFE, 0xFF]

/-- Source `src/constants.rs`: `UTF16LE_BOM = b"\xFF\xFE"`. -/
def UTF16LE_BOM : List Nat := [0xFF, 0xFE]

/-- Source `src/constants.rs`: `ZERO_BYTE = 0x00`. -/
def ZERO_BYTE : Nat := 0x00

/-- Source `src/constants.rs`: `BINARY_DETECTION_THRESHOLD = 8_000`. -/
def BINARY_DETECTION_THRESHOLD : Nat := 8000

/-- Source `src/constants.rs`: `UTF8_BOM_LENGTH = 3`. -/
def UTF8_BOM_LENGTH : Nat := 3

/-- Source `src/constants.rs`: `UTF16_BOM_LENGTH = 2`. -/
def UTF16_BOM_LENGTH : Nat := 2

/-- Source `src/encoding.rs`: the `Encoding` enum of supported encodings. -/
inductive Encoding
  | Utf8
  | Utf8Bom
  | Utf16Be
  | Utf16Le
  deriving DecidableEq, Repr

/-- Source `src/text_data.rs`: `TextData` pairs decoded text with its encoding.
The Rust `String` field is modelled as the list of scalar values. -/
structure TextData where
  data : List Nat
  encoding : Encoding
  deriving DecidableEq, Repr

/-- Source `src/text_data.rs`: the `TextDataError` enum.  `fromUtf8` stands for the
wrapped `FromUtf8Error`, `fromUtf16` for `FromUtf16Error`,
`unevenByteSequence` for `UnevenByteSequenceError` and `binary` for
`TextDataError::Binary`. -/
inductive TextDataError
  | fromUtf8
  | fromUtf16
  | unevenByteSequence
  | binary
  deriving DecidableEq, Repr

/-! ## `src/utf16.rs`: the UTF-16 unit packers -/

/-- Rust `slice::chunks(2)`: splits a list into consecutive chunks of two
elements; a final odd element yields a final chunk of length one. -/
def toChunks2 : List Nat → List (List Nat)
  | [] => []
  | [a] => [[a]]
  | a :: b :: rest => [a, b] :: toChunks2 rest

/-- Rust `u16::from_be_bytes` on a two-byte chunk (bytes are below 256, so the
result is below 65536 and no wrap-around can occur).  The length-one case
is unreachable in `to_u16_be` because odd inputs are rejected first. -/
def u16_from_be_bytes : List Nat → Nat
  | [a, b] => a * 256 + b
  | _ => 0

/-- Rust `u16::from_le_bytes` on a two-byte chunk, cf. `u16_from_be_bytes`. -/
def u16_from_le_bytes : List Nat → Nat
  | [a, b] => b * 256 + a
  | _ => 0

/-- Source `src/utf16.rs`: `to_u16_be`.  `none` models
`Err(UnevenByteSequenceError)`, the only error of the Rust function. -/
def to_u16_be (input : List Nat) : Option (List Nat) :=
  if input.length % 2 ≠ 0 then none
  else some ((toChunks2 input).map u16_from_be_bytes)

/-- Source `src/utf16.rs`: `to_u16_le`.  `none` models
`Err(UnevenByteSequenceError)`. -/
def to_u16_le (input : List Nat) : Option (List Nat) :=
  if input.length % 2 ≠ 0 then none
  else some ((toChunks2 input).map u16_from_le_bytes)

/-! ## The Rust standard library validators

`String::from_utf8` validates a byte buffer against the UTF-8 standard
(rejecting overlong forms, surrogates, code points above 0x10FFFF and
truncated sequences) and `String::from_utf16` validates a `u16` buffer
(rejecting unpaired surrogates).  They are modelled as decoders to the
list of scalar values; `none` models the respective error value. -/

/-- Lower bound for the second byte of a three-byte UTF-8 sequence with
lead byte `b` (0xE0 forbids overlong forms). -/
def utf8Cont1Lo3 (b : Nat) : Nat := if b = 0xE0 then 0xA0 else 0x80

/-- Upper bound for the second byte of a three-byte UTF-8 sequence with
lead byte `b` (0xED excludes surrogate code points). -/
def utf8Cont1Hi3 (b : Nat) : Nat := if b = 0xED then 0x9F else 0xBF

/-- Lower bound for the second byte of a four-byte UTF-8 sequence with
lead byte `b` (0xF0 forbids overlong forms). -/
def utf8Cont1Lo4 (b : Nat) : Nat := if b = 0xF0 then 0x90 else 0x80

/-- Upper bound for the second byte of a four-byte UTF-8 sequence with
lead byte `b` (0xF4 excludes code points above 0x10FFFF). -/
def utf8Cont1Hi4 (b : Nat) : Nat := if b = 0xF4 then 0x8F else 0xBF

/-- Rust `String::from_utf8`, as a decoder: strict UTF-8 validation producing
the scalar values, `none` on any malformed sequence. -/
def utf8Decode : List Nat → Option (List Nat)
  | [] => some []
  | b :: rest =>
    if b < 0x80 then
      (utf8Decode rest).map (fun s => b :: s)
    else if 0xC2 ≤ b ∧ b ≤ 0xDF then
      match rest with
      | c1 :: rest1 =>
        if 0x80 ≤ c1 ∧ c1 ≤ 0xBF then
          (utf8Decode rest1).map (fun s => ((b - 0xC0) * 0x40 + (c1 - 0x80)) :: s)
        else none
      | [] => none
    else if 0xE0 ≤ b ∧ b ≤ 0xEF then
      match rest with
      | c1 :: c2 :: rest2 =>
        if (utf8Cont1Lo3 b ≤ c1 ∧ c1 ≤ utf8Cont1Hi3 b) ∧ (0x80 ≤ c2 ∧ c2 ≤ 0xBF) then
          (utf8Decode rest2).map
            (fun s => ((b - 0xE0) * 0x1000 + (c1 - 0x80) * 0x40 + (c2 - 0x80)) :: s)
        else none
      | _ => none
    else if 0xF0 ≤ b ∧ b ≤ 0xF4 then
      match rest with
      | c1 :: c2 :: c3 :: rest3 =>
        if (utf8Cont1Lo4 b ≤ c1 ∧ c1 ≤ utf8Cont1Hi4 b) ∧
            (0x80 ≤ c2 ∧ c2 ≤ 0xBF) ∧ (0x80 ≤ c3 ∧ c3 ≤ 0xBF) then
          (utf8Decode rest3).map
            (fun s =>
              ((b - 0xF0) * 0x40000 + (c1 - 0x80) * 0x1000 +
                (c2 - 0x80) * 0x40 + (c3 - 0x80)) :: s)
        else none
      | _ => none
    else none

/-- Rust `String::from_utf16`, as a decoder: pairs surrogates, rejects unpaired
ones; `none` models `FromUtf16Error`. -/
def utf16Decode : List Nat → Option (List Nat)
  | [] => some []
  | u :: rest =>
    if u < 0xD800 ∨ 0xDFFF < u then
      (utf16Decode rest).map (fun s => u :: s)
    else if u ≤ 0xDBFF then
      match rest with
      | v :: rest1 =>
        if 0xDC00 ≤ v ∧ v ≤ 0xDFFF then
          (utf16Decode rest1).map
            (fun s => (0x10000 + (u - 0xD800) * 0x400 + (v - 0xDC00)) :: s)
        else none
      | [] => none
    else none

/-- A Unicode scalar value (the values a Rust `char` can hold). -/
def ScalarValue (c : Nat) : Prop := c < 0x110000 ∧ ¬(0xD800 ≤ c ∧ c ≤ 0xDFFF)

instance (c : Nat) : Decidable (ScalarValue c) := by
  unfold ScalarValue; infer_instance

/-! ## `src/text_data.rs`: detection -/

/-- Source `src/text_data.rs`: `is_binary` — true iff a zero byte occurs within
the first `BINARY_DETECTION_THRESHOLD` bytes. -/
def is_binary (bytes : List Nat) : Bool :=
  (bytes.take BINARY_DETECTION_THRESHOLD).any (fun b => b == ZERO_BYTE)

/-- Source `src/text_data.rs`: `impl TryFrom<&[u8]> for TextData`, the detection
orchestrator. -/
def TextData.tryFrom (bytes : List Nat) : Except TextDataError TextData :=
  if UTF8_BOM.isPrefixOf bytes then
    match utf8Decode (bytes.drop UTF8_BOM_LENGTH) with
    | some s => .ok ⟨s, .Utf8Bom⟩
    | none => .error .fromUtf8
  else if UTF16BE_BOM.isPrefixOf bytes then
    match to_u16_be (bytes.drop UTF16_BOM_LENGTH) with
    | none => .error .unevenByteSequence
    | some units =>
      match utf16Decode units with
      | some s => .ok ⟨s, .Utf16Be⟩
      | none => .error .fromUtf16
  else if UTF16LE_BOM.isPrefixOf bytes then
    match to_u16_le (bytes.drop UTF16_BOM_LENGTH) with
    | none => .error .unevenByteSequence
    | some units =>
      match utf16Decode units with
      | some s => .ok ⟨s, .Utf16Le⟩
      | none => .error .fromUtf16
  else if is_binary bytes then
    .error .binary
  else
    match utf8Decode bytes with
    | some s => .ok ⟨s, .Utf8⟩
    | none => .error .fromUtf8

/-! ## `src/encoding.rs`: encoders -/

/-- Rust `str::as_bytes` for one scalar value: the standard UTF-8 encoding of a
`char`. -/
def utf8EncodeChar (c : Nat) : List Nat :=
  if c < 0x80 then [c]
  else if c < 0x800 then [0xC0 + c / 0x40, 0x80 + c % 0x40]
  else if c < 0x10000 then
    [0xE0 + c / 0x1000, 0x80 + c / 0x40 % 0x40, 0x80 + c % 0x40]
  else
    [0xF0 + c / 0x40000, 0x80 + c / 0x1000 % 0x40,
      0x80 + c / 0x40 % 0x40, 0x80 + c % 0x40]

/-- Rust `str::as_bytes` on a whole string: concatenation of the per-character
UTF-8 encodings. -/
def utf8Encode (s : List Nat) : List Nat := s.flatMap utf8EncodeChar

/-- Rust `char::encode_utf16`: one unit below 0x10000, else a surrogate pair. -/
def encode_utf16_char (c : Nat) : List Nat :=
  if c < 0x10000 then [c]
  else [0xD800 + (c - 0x10000) / 0x400, 0xDC00 + (c - 0x10000) % 0x400]

/-- Rust `u16::to_be_bytes` (units produced by `encode_utf16_char` are below
65536, so the `% 256` on the high byte is the identity). -/
def u16_to_be_bytes (u : Nat) : List Nat := [u / 256 % 256, u % 256]

/-- Rust `u16::to_le_bytes`. -/
def u16_to_le_bytes (u : Nat) : List Nat := [u % 256, u / 256 % 256]

/-- Source `src/encoding.rs`: `to_utf8_bom` — BOM then the UTF-8 bytes. -/
def to_utf8_bom (s : List Nat) : List Nat := UTF8_BOM ++ utf8Encode s

/-- Source `src/encoding.rs`: `to_utf16_be` — BOM, then for each character its
UTF-16 unit(s), each unit emitted big-endian. -/
def to_utf16_be (s : List Nat) : List Nat :=
  UTF16BE_BOM ++ s.flatMap (fun c => (encode_utf16_char c).flatMap u16_to_be_bytes)

/-- Source `src/encoding.rs`: `to_utf16_le` — BOM, then for each character its
UTF-16 unit(s), each unit emitted little-endian. -/
def to_utf16_le (s : List Nat) : List Nat :=
  UTF16LE_BOM ++ s.flatMap (fun c => (encode_utf16_char c).flatMap u16_to_le_bytes)

/-! ## `src/file.rs`: the file content wrapper -/

/-- Source `src/file.rs`: the `FileContent` enum. -/
inductive FileContent
  | Encoded (content : TextData)
  | Binary (content : List Nat)
  deriving DecidableEq, Repr

/-- Source `src/file.rs`: `FileContent::write`, modelled as the byte sequence
handed to the writer (`write_all` writes it verbatim). -/
def FileContent.write : FileContent → List Nat
  | .Encoded content =>
    match content.encoding with
    | .Utf8 => utf8Encode content.data
    | .Utf8Bom => to_utf8_bom content.data
    | .Utf16Be => to_utf16_be content.data
    | .Utf16Le => to_utf16_le content.data
  | .Binary content => content

/-- Source `src/file.rs`: the content-selection logic of `File::new` — on any
`TextData::try_from` error the original bytes are stored as `Binary`
(the path field and the I/O read are outside the core and omitted). -/
def File.newContent (bytes : List Nat) : FileContent :=
  match TextData.tryFrom bytes with
  | .ok content => .Encoded content
  | .error _ => .Binary bytes

/-! ## Helper lemmas -/

instance {ε α : Type} [DecidableEq ε] [DecidableEq α] : DecidableEq (Except ε α) :=
  fun a b =>
    match a, b with
    | .ok x, .ok y => decidable_of_iff (x = y) (by simp)
    | .ok _, .error _ => isFalse (by simp)
    | .error _, .ok _ => isFalse (by simp)
    | .error x, .error y => decidable_of_iff (x = y) (by simp)

theorem isPrefixOf_pair_iff (a b : Nat) (l : List Nat) :
    List.isPrefixOf [a, b] l = true ↔ ∃ t, l = a :: b :: t := by
  match l with
  | [] => simp [List.isPrefixOf]
  | [x] => simp [List.isPrefixOf]
  | x :: y :: t =>
    simp only [List.isPrefixOf, Bool.and_eq_true, beq_iff_eq, List.cons.injEq]
    constructor
    · rintro ⟨hx, hy, -⟩; exact ⟨t, by simp [hx, hy]⟩
    · rintro ⟨t', hx, hy, -⟩; simp [hx, hy, List.isPrefixOf]

theorem isPrefixOf_triple_iff (a b c : Nat) (l : List Nat) :
    List.isPrefixOf [a, b, c] l = true ↔ ∃ t, l = a :: b :: c :: t := by
  match l with
  | [] => simp [List.isPrefixOf]
  | [x] => simp [List.isPrefixOf]
  | [x, y] => simp [List.isPrefixOf]
  | x :: y :: z :: t =>
    simp only [List.isPrefixOf, Bool.and_eq_true, beq_iff_eq, List.cons.injEq]
    constructor
    · rintro ⟨hx, hy, hz, -⟩; exact ⟨t, by simp [hx, hy, hz]⟩
    · rintro ⟨t', hx, hy, hz, -⟩; simp [hx, hy, hz, List.isPrefixOf]

/-- Unpacking the 16-bit units back to big-endian bytes gives back the
original even-length byte list. -/
theorem chunks_be_flatMap (input : List Nat) (heven : input.length % 2 = 0)
    (hbytes : ∀ b ∈ input, b < 256) :
    ((toChunks2 input).map u16_from_be_bytes).flatMap u16_to_be_bytes = input := by
  induction input using toChunks2.induct with
  | case1 => simp [toChunks2]
  | case2 a => simp at heven
  | case3 a b rest ih =>
    have ha : a < 256 := hbytes a (by simp)
    have hb : b < 256 := hbytes b (by simp)
    have heven' : rest.length % 2 = 0 := by simp only [List.length_cons] at heven; omega
    have hbytes' : ∀ x ∈ rest, x < 256 := fun x hx => hbytes x (by simp [hx])
    simp only [toChunks2, List.map_cons, List.flatMap_cons, ih heven' hbytes',
      u16_from_be_bytes, u16_to_be_bytes]
    have h1 : (a * 256 + b) / 256 % 256 = a := by omega
    have h2 : (a * 256 + b) % 256 = b := by omega
    simp [h1, h2]

/-- Little-endian counterpart of `chunks_be_flatMap`. -/
theorem chunks_le_flatMap (input : List Nat) (heven : input.length % 2 = 0)
    (hbytes : ∀ b ∈ input, b < 256) :
    ((toChunks2 input).map u16_from_le_bytes).flatMap u16_to_le_bytes = input := by
  induction input using toChunks2.induct with
  | case1 => simp [toChunks2]
  | case2 a => simp at heven
  | case3 a b rest ih =>
    have ha : a < 256 := hbytes a (by simp)
    have hb : b < 256 := hbytes b (by simp)
    have heven' : rest.length % 2 = 0 := by simp only [List.length_cons] at heven; omega
    have hbytes' : ∀ x ∈ rest, x < 256 := fun x hx => hbytes x (by simp [hx])
    simp only [toChunks2, List.map_cons, List.flatMap_cons, ih heven' hbytes',
      u16_from_le_bytes, u16_to_le_bytes]
    have h1 : (b * 256 + a) / 256 % 256 = b := by omega
    have h2 : (b * 256 + a) % 256 = a := by omega
    simp [h1, h2]

/-- Units packed from a byte list fit in 16 bits. -/
theorem chunks_be_lt (input : List Nat) (hbytes : ∀ b ∈ input, b < 256) :
    ∀ u ∈ (toChunks2 input).map u16_from_be_bytes, u < 65536 := by
  induction input using toChunks2.induct with
  | case1 => simp [toChunks2]
  | case2 a => simp [toChunks2, u16_from_be_bytes]
  | case3 a b rest ih =>
    have ha : a < 256 := hbytes a (by simp)
    have hb : b < 256 := hbytes b (by simp)
    have hbytes' : ∀ x ∈ rest, x < 256 := fun x hx => hbytes x (by simp [hx])
    intro u hu
    simp only [toChunks2, List.map_cons, List.mem_cons] at hu
    rcases hu with h | h
    · simp only [u16_from_be_bytes] at h; omega
    · exact ih hbytes' u h

/-- Little-endian counterpart of `chunks_be_lt`. -/
theorem chunks_le_lt (input : List Nat) (hbytes : ∀ b ∈ input, b < 256) :
    ∀ u ∈ (toChunks2 input).map u16_from_le_bytes, u < 65536 := by
  induction input using toChunks2.induct with
  | case1 => simp [toChunks2]
  | case2 a => simp [toChunks2, u16_from_le_bytes]
  | case3 a b rest ih =>
    have ha : a < 256 := hbytes a (by simp)
    have hb : b < 256 := hbytes b (by simp)
    have hbytes' : ∀ x ∈ rest, x < 256 := fun x hx => hbytes x (by simp [hx])
    intro u hu
    simp only [toChunks2, List.map_cons, List.mem_cons] at hu
    rcases hu with h | h
    · simp only [u16_from_le_bytes] at h; omega
    · exact ih hbytes' u h

/-! ### Unfolding lemmas for the decoders

The equation compiler merges the nested matches of `utf8Decode` and
`utf16Decode` into one matcher over the first four list elements, so
`utf8Decode (b :: rest)` with an opaque `rest` is stuck; these lemmas
restore one-step unfolding. -/

theorem utf8Decode_cons (b : Nat) (rest : List Nat) :
    utf8Decode (b :: rest) =
      if b < 0x80 then (utf8Decode rest).map (fun s => b :: s)
      else if 0xC2 ≤ b ∧ b ≤ 0xDF then
        match rest with
        | c1 :: rest1 =>
          if 0x80 ≤ c1 ∧ c1 ≤ 0xBF then
            (utf8Decode rest1).map (fun s => ((b - 0xC0) * 0x40 + (c1 - 0x80)) :: s)
          else none
        | [] => none
      else if 0xE0 ≤ b ∧ b ≤ 0xEF then
        match rest with
        | c1 :: c2 :: rest2 =>
          if (utf8Cont1Lo3 b ≤ c1 ∧ c1 ≤ utf8Cont1Hi3 b) ∧ (0x80 ≤ c2 ∧ c2 ≤ 0xBF) then
            (utf8Decode rest2).map
              (fun s => ((b - 0xE0) * 0x1000 + (c1 - 0x80) * 0x40 + (c2 - 0x80)) :: s)
          else none
        | _ => none
      else if 0xF0 ≤ b ∧ b ≤ 0xF4 then
        match rest with
        | c1 :: c2 :: c3 :: rest3 =>
          if (utf8Cont1Lo4 b ≤ c1 ∧ c1 ≤ utf8Cont1Hi4 b) ∧
              (0x80 ≤ c2 ∧ c2 ≤ 0xBF) ∧ (0x80 ≤ c3 ∧ c3 ≤ 0xBF) then
            (utf8Decode rest3).map
              (fun s =>
                ((b - 0xF0) * 0x40000 + (c1 - 0x80) * 0x1000 +
                  (c2 - 0x80) * 0x40 + (c3 - 0x80)) :: s)
          else none
        | _ => none
      else none := by
  match rest with
  | [] => rfl
  | [c1] => rfl
  | [c1, c2] => rfl
  | [c1, c2, c3] => rfl
  | c1 :: c2 :: c3 :: c4 :: rest4 => rfl

theorem utf8Decode_two (b c1 : Nat) (rest1 : List Nat) (h1 : ¬b < 0x80)
    (h2 : 0xC2 ≤ b ∧ b ≤ 0xDF) :
    utf8Decode (b :: c1 :: rest1) =
      if 0x80 ≤ c1 ∧ c1 ≤ 0xBF then
        (utf8Decode rest1).map (fun s => ((b - 0xC0) * 0x40 + (c1 - 0x80)) :: s)
      else none := by
  rw [utf8Decode_cons, if_neg h1, if_pos h2]

theorem utf8Decode_three (b c1 c2 : Nat) (rest2 : List Nat) (h1 : ¬b < 0x80)
    (h2 : ¬(0xC2 ≤ b ∧ b ≤ 0xDF)) (h3 : 0xE0 ≤ b ∧ b ≤ 0xEF) :
    utf8Decode (b :: c1 :: c2 :: rest2) =
      if (utf8Cont1Lo3 b ≤ c1 ∧ c1 ≤ utf8Cont1Hi3 b) ∧ (0x80 ≤ c2 ∧ c2 ≤ 0xBF) then
        (utf8Decode rest2).map
          (fun s => ((b - 0xE0) * 0x1000 + (c1 - 0x80) * 0x40 + (c2 - 0x80)) :: s)
      else none := by
  rw [utf8Decode_cons, if_neg h1, if_neg h2, if_pos h3]

theorem utf8Decode_four (b c1 c2 c3 : Nat) (rest3 : List Nat) (h1 : ¬b < 0x80)
    (h2 : ¬(0xC2 ≤ b ∧ b ≤ 0xDF)) (h3 : ¬(0xE0 ≤ b ∧ b ≤ 0xEF))
    (h4 : 0xF0 ≤ b ∧ b ≤ 0xF4) :
    utf8Decode (b :: c1 :: c2 :: c3 :: rest3) =
      if (utf8Cont1Lo4 b ≤ c1 ∧ c1 ≤ utf8Cont1Hi4 b) ∧
          (0x80 ≤ c2 ∧ c2 ≤ 0xBF) ∧ (0x80 ≤ c3 ∧ c3 ≤ 0xBF) then
        (utf8Decode rest3).map
          (fun s =>
            ((b - 0xF0) * 0x40000 + (c1 - 0x80) * 0x1000 +
              (c2 - 0x80) * 0x40 + (c3 - 0x80)) :: s)
      else none := by
  rw [utf8Decode_cons, if_neg h1, if_neg h2, if_neg h3, if_pos h4]

theorem utf8Decode_bad_lead (b : Nat) (rest : List Nat) (h1 : ¬b < 0x80)
    (h2 : ¬(0xC2 ≤ b ∧ b ≤ 0xDF)) (h3 : ¬(0xE0 ≤ b ∧ b ≤ 0xEF))
    (h4 : ¬(0xF0 ≤ b ∧ b ≤ 0xF4)) :
    utf8Decode (b :: rest) = none := by
  rw [utf8Decode_cons, if_neg h1, if_neg h2, if_neg h3, if_neg h4]

theorem utf16Decode_cons (u : Nat) (rest : List Nat) :
    utf16Decode (u :: rest) =
      if u < 0xD800 ∨ 0xDFFF < u then (utf16Decode rest).map (fun s => u :: s)
      else if u ≤ 0xDBFF then
        match rest with
        | v :: rest1 =>
          if 0xDC00 ≤ v ∧ v ≤ 0xDFFF then
            (utf16Decode rest1).map
              (fun s => (0x10000 + (u - 0xD800) * 0x400 + (v - 0xDC00)) :: s)
          else none
        | [] => none
      else none := by
  match rest with
  | [] => rfl
  | v :: rest1 => rfl

theorem utf16Decode_pair (u v : Nat) (rest1 : List Nat)
    (hn : ¬(u < 0xD800 ∨ 0xDFFF < u)) (hle : u ≤ 0xDBFF) :
    utf16Decode (u :: v :: rest1) =
      if 0xDC00 ≤ v ∧ v ≤ 0xDFFF then
        (utf16Decode rest1).map
          (fun s => (0x10000 + (u - 0xD800) * 0x400 + (v - 0xDC00)) :: s)
      else none := by
  rw [utf16Decode_cons, if_neg hn, if_pos hle]

/-! ### Round-trip lemmas for the two codecs -/

/-- Re-encoding a successfully UTF-8-decoded byte list reproduces it. -/
theorem utf8Decode_to_encode (bs : List Nat) :
    ∀ cs, utf8Decode bs = some cs → cs.flatMap utf8EncodeChar = bs := by
  induction bs using utf8Decode.induct with
  | case1 =>
    intro cs hdec
    have h0 : (some [] : Option (List Nat)) = some cs := hdec
    cases Option.some.inj h0
    rfl
  | case2 b rest hb ih =>
    intro cs hdec
    rw [utf8Decode_cons, if_pos hb] at hdec
    rcases Option.map_eq_some'.mp hdec with ⟨cs', hcs', rfl⟩
    have he : utf8EncodeChar b = [b] := by simp only [utf8EncodeChar, if_pos hb]
    simp [List.flatMap_cons, he, ih cs' hcs']
  | case3 b h1 h2 c1 rest1 hc1 ih =>
    intro cs hdec
    rw [utf8Decode_two b c1 rest1 h1 h2, if_pos hc1] at hdec
    rcases Option.map_eq_some'.mp hdec with ⟨cs', hcs', rfl⟩
    have he : utf8EncodeChar ((b - 0xC0) * 0x40 + (c1 - 0x80)) = [b, c1] := by
      simp only [utf8EncodeChar,
        if_neg (show ¬((b - 0xC0) * 0x40 + (c1 - 0x80) < 0x80) by omega),
        if_pos (show (b - 0xC0) * 0x40 + (c1 - 0x80) < 0x800 by omega),
        List.cons.injEq, and_true]
      omega
    simp [List.flatMap_cons, he, ih cs' hcs']
  | case4 b h1 h2 c1 rest1 hc1 =>
    intro cs hdec
    rw [utf8Decode_two b c1 rest1 h1 h2, if_neg hc1] at hdec
    exact Option.noConfusion hdec
  | case5 b h1 h2 =>
    intro cs hdec
    rw [utf8Decode_cons, if_neg h1, if_pos h2] at hdec
    exact Option.noConfusion hdec
  | case6 b h1 h2 h3 c1 c2 rest2 hcond ih =>
    intro cs hdec
    rw [utf8Decode_three b c1 c2 rest2 h1 h2 h3, if_pos hcond] at hdec
    rcases Option.map_eq_some'.mp hdec with ⟨cs', hcs', rfl⟩
    obtain ⟨⟨hc1lo, hc1hi⟩, hc2lo, hc2hi⟩ := hcond
    have hA : b = 0xE0 → 0xA0 ≤ c1 := fun hE => by
      simpa [utf8Cont1Lo3, hE] using hc1lo
    have hB : b ≠ 0xE0 → 0x80 ≤ c1 := fun hE => by
      simpa [utf8Cont1Lo3, hE] using hc1lo
    have hC : c1 ≤ 0xBF := by
      by_cases hD : b = 0xED
      · have := hc1hi; simp [utf8Cont1Hi3, hD] at this; omega
      · simpa [utf8Cont1Hi3, hD] using hc1hi
    have he : utf8EncodeChar ((b - 0xE0) * 0x1000 + (c1 - 0x80) * 0x40 + (c2 - 0x80)) =
        [b, c1, c2] := by
      simp only [utf8EncodeChar,
        if_neg (show ¬((b - 0xE0) * 0x1000 + (c1 - 0x80) * 0x40 + (c2 - 0x80) < 0x80) by omega),
        if_neg (show ¬((b - 0xE0) * 0x1000 + (c1 - 0x80) * 0x40 + (c2 - 0x80) < 0x800) by omega),
        if_pos (show (b - 0xE0) * 0x1000 + (c1 - 0x80) * 0x40 + (c2 - 0x80) < 0x10000 by omega),
        List.cons.injEq, and_true]
      omega
    simp [List.flatMap_cons, he, ih cs' hcs']
  | case7 b h1 h2 h3 c1 c2 rest2 hcond =>
    intro cs hdec
    rw [utf8Decode_three b c1 c2 rest2 h1 h2 h3, if_neg hcond] at hdec
    exact Option.noConfusion hdec
  | case8 b rest h1 h2 h3 hshape =>
    intro cs hdec
    match rest, hshape with
    | [], _ =>
      rw [utf8Decode_cons, if_neg h1, if_neg h2, if_pos h3] at hdec
      exact Option.noConfusion hdec
    | [c1], _ =>
      rw [utf8Decode_cons, if_neg h1, if_neg h2, if_pos h3] at hdec
      exact Option.noConfusion hdec
    | c1 :: c2 :: r, hshape => exact (hshape c1 c2 r rfl).elim
  | case9 b h1 h2 h3 h4 c1 c2 c3 rest3 hcond ih =>
    intro cs hdec
    rw [utf8Decode_four b c1 c2 c3 rest3 h1 h2 h3 h4, if_pos hcond] at hdec
    rcases Option.map_eq_some'.mp hdec with ⟨cs', hcs', rfl⟩
    obtain ⟨⟨hc1lo, hc1hi⟩, ⟨hc2lo, hc2hi⟩, hc3lo, hc3hi⟩ := hcond
    have hA : b = 0xF0 → 0x90 ≤ c1 := fun hE => by
      simpa [utf8Cont1Lo4, hE] using hc1lo
    have hB : b ≠ 0xF0 → 0x80 ≤ c1 := fun hE => by
      simpa [utf8Cont1Lo4, hE] using hc1lo
    have hC : c1 ≤ 0xBF := by
      by_cases hD : b = 0xF4
      · have := hc1hi; simp [utf8Cont1Hi4, hD] at this; omega
      · simpa [utf8Cont1Hi4, hD] using hc1hi
    have he : utf8EncodeChar
        ((b - 0xF0) * 0x40000 + (c1 - 0x80) * 0x1000 + (c2 - 0x80) * 0x40 + (c3 - 0x80)) =
        [b, c1, c2, c3] := by
      simp only [utf8EncodeChar,
        if_neg (show ¬((b - 0xF0) * 0x40000 + (c1 - 0x80) * 0x1000 +
          (c2 - 0x80) * 0x40 + (c3 - 0x80) < 0x80) by omega),
        if_neg (show ¬((b - 0xF0) * 0x40000 + (c1 - 0x80) * 0x1000 +
          (c2 - 0x80) * 0x40 + (c3 - 0x80) < 0x800) by omega),
        if_neg (show ¬((b - 0xF0) * 0x40000 + (c1 - 0x80) * 0x1000 +
          (c2 - 0x80) * 0x40 + (c3 - 0x80) < 0x10000) by omega),
        List.cons.injEq, and_true]
      omega
    simp [List.flatMap_cons, he, ih cs' hcs']
  | case10 b h1 h2 h3 h4 c1 c2 c3 rest3 hcond =>
    intro cs hdec
    rw [utf8Decode_four b c1 c2 c3 rest3 h1 h2 h3 h4, if_neg hcond] at hdec
    exact Option.noConfusion hdec
  | case11 b rest h1 h2 h3 h4 hshape =>
    intro cs hdec
    match rest, hshape with
    | [], _ =>
      rw [utf8Decode_cons, if_neg h1, if_neg h2, if_neg h3, if_pos h4] at hdec
      exact Option.noConfusion hdec
    | [c1], _ =>
      rw [utf8Decode_cons, if_neg h1, if_neg h2, if_neg h3, if_pos h4] at hdec
      exact Option.noConfusion hdec
    | [c1, c2], _ =>
      rw [utf8Decode_cons, if_neg h1, if_neg h2, if_neg h3, if_pos h4] at hdec
      exact Option.noConfusion hdec
    | c1 :: c2 :: c3 :: r, hshape => exact (hshape c1 c2 c3 r rfl).elim
  | case12 b rest h1 h2 h3 h4 =>
    intro cs hdec
    rw [utf8Decode_bad_lead b rest h1 h2 h3 h4] at hdec
    exact Option.noConfusion hdec

/-- Decoding the UTF-8 encoding of one scalar value peels it off. -/
theorem utf8EncodeChar_decode (c : Nat) (rest : List Nat) (hc : ScalarValue c) :
    utf8Decode (utf8EncodeChar c ++ rest) = (utf8Decode rest).map (fun s => c :: s) := by
  rcases hc with ⟨hlt, hsur⟩
  by_cases h1 : c < 0x80
  · simp only [utf8EncodeChar, if_pos h1, List.cons_append, List.nil_append]
    rw [utf8Decode_cons, if_pos h1]
  · by_cases h2 : c < 0x800
    · simp only [utf8EncodeChar, if_neg h1, if_pos h2, List.cons_append, List.nil_append]
      rw [utf8Decode_two _ _ _ (by omega) (by constructor <;> omega),
        if_pos (by constructor <;> omega)]
      rw [show (0xC0 + c / 0x40 - 0xC0) * 0x40 + (0x80 + c % 0x40 - 0x80) = c from by omega]
    · by_cases h3 : c < 0x10000
      · simp only [utf8EncodeChar, if_neg h1, if_neg h2, if_pos h3, List.cons_append,
          List.nil_append]
        have hcond : (utf8Cont1Lo3 (0xE0 + c / 0x1000) ≤ 0x80 + c / 0x40 % 0x40 ∧
            0x80 + c / 0x40 % 0x40 ≤ utf8Cont1Hi3 (0xE0 + c / 0x1000)) ∧
            (0x80 ≤ 0x80 + c % 0x40 ∧ 0x80 + c % 0x40 ≤ 0xBF) := by
          unfold utf8Cont1Lo3 utf8Cont1Hi3
          refine ⟨⟨?_, ?_⟩, by omega, by omega⟩ <;> split <;> omega
        rw [utf8Decode_three _ _ _ _ (by omega) (by omega) (by constructor <;> omega),
          if_pos hcond]
        rw [show (0xE0 + c / 0x1000 - 0xE0) * 0x1000 + (0x80 + c / 0x40 % 0x40 - 0x80) * 0x40 +
          (0x80 + c % 0x40 - 0x80) = c from by omega]
      · simp only [utf8EncodeChar, if_neg h1, if_neg h2, if_neg h3, List.cons_append,
          List.nil_append]
        have hcond : (utf8Cont1Lo4 (0xF0 + c / 0x40000) ≤ 0x80 + c / 0x1000 % 0x40 ∧
            0x80 + c / 0x1000 % 0x40 ≤ utf8Cont1Hi4 (0xF0 + c / 0x40000)) ∧
            (0x80 ≤ 0x80 + c / 0x40 % 0x40 ∧ 0x80 + c / 0x40 % 0x40 ≤ 0xBF) ∧
            (0x80 ≤ 0x80 + c % 0x40 ∧ 0x80 + c % 0x40 ≤ 0xBF) := by
          unfold utf8Cont1Lo4 utf8Cont1Hi4
          refine ⟨⟨?_, ?_⟩, ⟨by omega, by omega⟩, by omega, by omega⟩ <;> split <;> omega
        rw [utf8Decode_four _ _ _ _ _ (by omega) (by omega) (by omega)
          (by constructor <;> omega), if_pos hcond]
        rw [show (0xF0 + c / 0x40000 - 0xF0) * 0x40000 + (0x80 + c / 0x1000 % 0x40 - 0x80) * 0x1000 +
          (0x80 + c / 0x40 % 0x40 - 0x80) * 0x40 + (0x80 + c % 0x40 - 0x80) = c from by omega]

/-- Decoding the UTF-8 encoding of a list of scalar values gives it back. -/
theorem utf8Encode_decode (cs : List Nat) (h : ∀ c ∈ cs, ScalarValue c) :
    utf8Decode (cs.flatMap utf8EncodeChar) = some cs := by
  induction cs with
  | nil => rfl
  | cons c cs ih =>
    simp only [List.flatMap_cons, utf8EncodeChar_decode c _ (h c (by simp)),
      ih (fun x hx => h x (by simp [hx]))]
    rfl

/-- Every byte a UTF-8 encoder emits is at most 0xF4; in particular no BOM
byte 0xFE / 0xFF ever occurs. -/
theorem utf8EncodeChar_le (c : Nat) (hc : c < 0x110000) :
    ∀ b ∈ utf8EncodeChar c, b ≤ 0xF4 := by
  intro b hb
  by_cases h1 : c < 0x80
  · simp only [utf8EncodeChar, if_pos h1, List.mem_singleton] at hb; omega
  · by_cases h2 : c < 0x800
    · simp only [utf8EncodeChar, if_neg h1, if_pos h2, List.mem_cons, List.mem_singleton,
        List.not_mem_nil, or_false] at hb
      rcases hb with h | h <;> omega
    · by_cases h3 : c < 0x10000
      · simp only [utf8EncodeChar, if_neg h1, if_neg h2, if_pos h3, List.mem_cons,
          List.not_mem_nil, or_false] at hb
        rcases hb with h | h | h <;> omega
      · simp only [utf8EncodeChar, if_neg h1, if_neg h2, if_neg h3, List.mem_cons,
          List.not_mem_nil, or_false] at hb
        rcases hb with h | h | h | h <;> omega

theorem utf8Encode_le (cs : List Nat) (h : ∀ c ∈ cs, ScalarValue c) :
    ∀ b ∈ cs.flatMap utf8EncodeChar, b ≤ 0xF4 := by
  intro b hb
  rcases List.mem_flatMap.mp hb with ⟨c, hc, hbc⟩
  exact utf8EncodeChar_le c (h c hc).1 b hbc

/-- Re-encoding a successfully UTF-16-decoded unit list reproduces it. -/
theorem utf16Decode_to_encode (us : List Nat) :
    ∀ cs, utf16Decode us = some cs → (∀ u ∈ us, u < 65536) →
      cs.flatMap encode_utf16_char = us := by
  induction us using utf16Decode.induct with
  | case1 =>
    intro cs hdec _
    have h0 : (some [] : Option (List Nat)) = some cs := hdec
    cases Option.some.inj h0
    rfl
  | case2 u rest h ih =>
    intro cs hdec hlt
    rw [utf16Decode_cons, if_pos h] at hdec
    rcases Option.map_eq_some'.mp hdec with ⟨cs', hcs', rfl⟩
    have hu : u < 65536 := hlt u (by simp)
    have he : encode_utf16_char u = [u] := by
      simp only [encode_utf16_char, if_pos (show u < 0x10000 by omega)]
    simp [List.flatMap_cons, he, ih cs' hcs' (fun x hx => hlt x (by simp [hx]))]
  | case3 u hn hle v rest hv ih =>
    intro cs hdec hlt
    rw [utf16Decode_pair u v rest hn hle, if_pos hv] at hdec
    rcases Option.map_eq_some'.mp hdec with ⟨cs', hcs', rfl⟩
    have he : encode_utf16_char (0x10000 + (u - 0xD800) * 0x400 + (v - 0xDC00)) = [u, v] := by
      simp only [encode_utf16_char,
        if_neg (show ¬(0x10000 + (u - 0xD800) * 0x400 + (v - 0xDC00) < 0x10000) by omega),
        List.cons.injEq, and_true]
      omega
    simp [List.flatMap_cons, he, ih cs' hcs' (fun x hx => hlt x (by simp [hx]))]
  | case4 u hn hle v rest hv =>
    intro cs hdec hlt
    rw [utf16Decode_pair u v rest hn hle, if_neg hv] at hdec
    exact Option.noConfusion hdec
  | case5 u hn hle =>
    intro cs hdec hlt
    rw [utf16Decode_cons, if_neg hn, if_pos hle] at hdec
    exact Option.noConfusion hdec
  | case6 u rest hn hle =>
    intro cs hdec hlt
    rw [utf16Decode_cons, if_neg hn, if_neg hle] at hdec
    exact Option.noConfusion hdec

/-- Decoding the UTF-16 units of one scalar value peels it off. -/
theorem encode_utf16_char_decode (c : Nat) (rest : List Nat) (hc : ScalarValue c) :
    utf16Decode (encode_utf16_char c ++ rest) = (utf16Decode rest).map (fun s => c :: s) := by
  rcases hc with ⟨hlt, hsur⟩
  by_cases h : c < 0x10000
  · simp only [encode_utf16_char, if_pos h, List.cons_append, List.nil_append]
    rw [utf16Decode_cons, if_pos (show c < 0xD800 ∨ 0xDFFF < c by omega)]
  · simp only [encode_utf16_char, if_neg h, List.cons_append, List.nil_append]
    rw [utf16Decode_pair _ _ _ (by omega) (by omega), if_pos (by constructor <;> omega)]
    rw [show 0x10000 + (0xD800 + (c - 0x10000) / 0x400 - 0xD800) * 0x400 +
      (0xDC00 + (c - 0x10000) % 0x400 - 0xDC00) = c from by omega]

/-- Decoding the UTF-16 encoding of a list of scalar values gives it back. -/
theorem utf16Encode_decode (cs : List Nat) (h : ∀ c ∈ cs, ScalarValue c) :
    utf16Decode (cs.flatMap encode_utf16_char) = some cs := by
  induction cs with
  | nil => rfl
  | cons c cs ih =>
    simp only [List.flatMap_cons, encode_utf16_char_decode c _ (h c (by simp)),
      ih (fun x hx => h x (by simp [hx]))]
    rfl

/-- UTF-16 units of valid scalar values fit in 16 bits. -/
theorem utf16Encode_units_lt (cs : List Nat) (h : ∀ c ∈ cs, ScalarValue c) :
    ∀ u ∈ cs.flatMap encode_utf16_char, u < 65536 := by
  intro u hu
  rcases List.mem_flatMap.mp hu with ⟨c, hc, huc⟩
  rcases h c hc with ⟨hlt, hsur⟩
  by_cases hsmall : c < 0x10000
  · simp only [encode_utf16_char, if_pos hsmall, List.mem_singleton] at huc; omega
  · simp only [encode_utf16_char, if_neg hsmall, List.mem_cons, List.mem_singleton,
      List.not_mem_nil, or_false] at huc
    rcases huc with h1 | h1 <;> omega

/-! ### The unit packers against the byte encoders -/

theorem to_u16_be_eq_some (input us : List Nat) :
    to_u16_be input = some us ↔
      input.length % 2 = 0 ∧ (toChunks2 input).map u16_from_be_bytes = us := by
  unfold to_u16_be
  split
  · simp; omega
  · simp; omega

theorem to_u16_le_eq_some (input us : List Nat) :
    to_u16_le input = some us ↔
      input.length % 2 = 0 ∧ (toChunks2 input).map u16_from_le_bytes = us := by
  unfold to_u16_le
  split
  · simp; omega
  · simp; omega

theorem flatMap_be_length_even (us : List Nat) :
    (us.flatMap u16_to_be_bytes).length % 2 = 0 := by
  induction us with
  | nil => rfl
  | cons u rest ih => simp only [List.flatMap_cons, u16_to_be_bytes, List.length_append,
      List.length_cons, List.length_nil]; omega

theorem flatMap_le_length_even (us : List Nat) :
    (us.flatMap u16_to_le_bytes).length % 2 = 0 := by
  induction us with
  | nil => rfl
  | cons u rest ih => simp only [List.flatMap_cons, u16_to_le_bytes, List.length_append,
      List.length_cons, List.length_nil]; omega

/-- Repacking the big-endian bytes of a 16-bit unit list gives it back. -/
theorem toChunks2_flatMap_be (us : List Nat) (h : ∀ u ∈ us, u < 65536) :
    (toChunks2 (us.flatMap u16_to_be_bytes)).map u16_from_be_bytes = us := by
  induction us with
  | nil => rfl
  | cons u rest ih =>
    have hu : u < 65536 := h u (by simp)
    have step : (u :: rest).flatMap u16_to_be_bytes =
        (u / 256 % 256) :: (u % 256) :: rest.flatMap u16_to_be_bytes := rfl
    rw [step]
    simp only [toChunks2, List.map_cons, u16_from_be_bytes]
    rw [ih (fun x hx => h x (by simp [hx]))]
    have : u / 256 % 256 * 256 + u % 256 = u := by omega
    rw [this]

/-- Repacking the little-endian bytes of a 16-bit unit list gives it back. -/
theorem toChunks2_flatMap_le (us : List Nat) (h : ∀ u ∈ us, u < 65536) :
    (toChunks2 (us.flatMap u16_to_le_bytes)).map u16_from_le_bytes = us := by
  induction us with
  | nil => rfl
  | cons u rest ih =>
    have hu : u < 65536 := h u (by simp)
    have step : (u :: rest).flatMap u16_to_le_bytes =
        (u % 256) :: (u / 256 % 256) :: rest.flatMap u16_to_le_bytes := rfl
    rw [step]
    simp only [toChunks2, List.map_cons, u16_from_le_bytes]
    rw [ih (fun x hx => h x (by simp [hx]))]
    have : u / 256 % 256 * 256 + u % 256 = u := by omega
    rw [this]

theorem to_u16_be_flatMap (us : List Nat) (h : ∀ u ∈ us, u < 65536) :
    to_u16_be (us.flatMap u16_to_be_bytes) = some us :=
  (to_u16_be_eq_some _ _).mpr ⟨flatMap_be_length_even us, toChunks2_flatMap_be us h⟩

theorem to_u16_le_flatMap (us : List Nat) (h : ∀ u ∈ us, u < 65536) :
    to_u16_le (us.flatMap u16_to_le_bytes) = some us :=
  (to_u16_le_eq_some _ _).mpr ⟨flatMap_le_length_even us, toChunks2_flatMap_le us h⟩

/-! ### Detection-level helpers -/

theorem is_binary_iff (bytes : List Nat) :
    is_binary bytes = true ↔ 0 ∈ bytes.take 8000 := by
  simp only [is_binary, ZERO_BYTE, BINARY_DETECTION_THRESHOLD, List.any_eq_true, beq_iff_eq]
  constructor
  · rintro ⟨x, hx, rfl⟩; exact hx
  · intro h; exact ⟨0, h, rfl⟩

theorem isPrefixOf_pair_head_ne (a b x : Nat) (l : List Nat) (h : x ≠ a) :
    List.isPrefixOf [a, b] (x :: l) = false := by
  rw [Bool.eq_false_iff]
  intro hp
  rcases (isPrefixOf_pair_iff a b (x :: l)).mp hp with ⟨t, ht⟩
  simp only [List.cons.injEq] at ht
  exact h ht.1

theorem isPrefixOf_triple_head_ne (a b c x : Nat) (l : List Nat) (h : x ≠ a) :
    List.isPrefixOf [a, b, c] (x :: l) = false := by
  rw [Bool.eq_false_iff]
  intro hp
  rcases (isPrefixOf_triple_iff a b c (x :: l)).mp hp with ⟨t, ht⟩
  simp only [List.cons.injEq] at ht
  exact h ht.1

theorem isPrefixOf_pair_nil (a b : Nat) : List.isPrefixOf [a, b] ([] : List Nat) = false := rfl

theorem isPrefixOf_triple_nil (a b c : Nat) :
    List.isPrefixOf [a, b, c] ([] : List Nat) = false := rfl

/-- A list whose members all stay below 0xF5 never starts with a UTF-16 BOM
byte. -/
theorem not_utf16_bom_of_le (l : List Nat) (hb : ∀ b ∈ l, b ≤ 0xF4) :
    List.isPrefixOf UTF16BE_BOM l = false ∧ List.isPrefixOf UTF16LE_BOM l = false := by
  match l with
  | [] => exact ⟨rfl, rfl⟩
  | x :: t =>
    have hx : x ≤ 0xF4 := hb x (by simp)
    exact ⟨isPrefixOf_pair_head_ne _ _ _ _ (by omega),
      isPrefixOf_pair_head_ne _ _ _ _ (by omega)⟩

/-- If the UTF-8 encoding of a valid scalar string starts with the UTF-8
BOM bytes, the string starts with U+FEFF. -/
theorem utf8Encode_bom_head (t : List Nat) (hv : ∀ c ∈ t, ScalarValue c)
    (hp : List.isPrefixOf UTF8_BOM (t.flatMap utf8EncodeChar) = true) :
    t.head? = some 0xFEFF := by
  match t with
  | [] => exact absurd hp (by rw [List.flatMap_nil]; simp [UTF8_BOM, List.isPrefixOf])
  | c :: t' =>
    rcases (isPrefixOf_triple_iff 0xEF 0xBB 0xBF _).mp hp with ⟨tail, htail⟩
    rw [List.flatMap_cons] at htail
    rcases hv c (by simp) with ⟨hlt, hsur⟩
    suffices hc : c = 0xFEFF by simp [hc]
    by_cases h1 : c < 0x80
    · simp only [utf8EncodeChar, if_pos h1, List.cons_append, List.nil_append,
        List.cons.injEq] at htail
      omega
    · by_cases h2 : c < 0x800
      · simp only [utf8EncodeChar, if_neg h1, if_pos h2, List.cons_append, List.nil_append,
          List.cons.injEq] at htail
        omega
      · by_cases h3 : c < 0x10000
        · simp only [utf8EncodeChar, if_neg h1, if_neg h2, if_pos h3, List.cons_append,
            List.nil_append, List.cons.injEq] at htail
          omega
        · simp only [utf8EncodeChar, if_neg h1, if_neg h2, if_neg h3, List.cons_append,
            List.nil_append, List.cons.injEq] at htail
          omega

/-! ### Priority-ordered views of the detector -/

theorem take_pair_iff (a b : Nat) (l : List Nat) :
    l.take 2 = [a, b] ↔ ∃ t, l = a :: b :: t := by
  match l with
  | [] => simp
  | [x] => simp
  | x :: y :: t =>
    simp only [List.take_succ_cons, List.take_zero]
    constructor
    · intro h
      injection h with h1 h2
      injection h2 with h2 h3
      exact ⟨t, by rw [h1, h2]⟩
    · rintro ⟨t', ht⟩
      injection ht with h1 h2
      injection h2 with h2 h3
      rw [h1, h2]

theorem take_triple_iff (a b c : Nat) (l : List Nat) :
    l.take 3 = [a, b, c] ↔ ∃ t, l = a :: b :: c :: t := by
  match l with
  | [] => simp
  | [x] => simp
  | [x, y] => simp
  | x :: y :: z :: t =>
    simp only [List.take_succ_cons, List.take_zero]
    constructor
    · intro h
      injection h with h1 h2
      injection h2 with h2 h3
      injection h3 with h3 h4
      exact ⟨t, by rw [h1, h2, h3]⟩
    · rintro ⟨t', ht⟩
      injection ht with h1 h2
      injection h2 with h2 h3
      injection h3 with h3 h4
      rw [h1, h2, h3]

/-- Detection on a buffer that starts with the UTF-8 BOM. -/
theorem tryFrom_utf8bom (t : List Nat) :
    TextData.tryFrom (0xEF :: 0xBB :: 0xBF :: t) =
      match utf8Decode t with
      | some s => .ok ⟨s, .Utf8Bom⟩
      | none => .error .fromUtf8 := by
  simp only [TextData.tryFrom]
  rw [if_pos (show UTF8_BOM.isPrefixOf (0xEF :: 0xBB :: 0xBF :: t) = true from
    (isPrefixOf_triple_iff 0xEF 0xBB 0xBF _).mpr ⟨t, rfl⟩)]
  rfl

/-- Detection on a buffer that starts with the UTF-16-BE BOM. -/
theorem tryFrom_utf16be (t : List Nat) :
    TextData.tryFrom (0xFE :: 0xFF :: t) =
      match to_u16_be t with
      | none => .error .unevenByteSequence
      | some units =>
        match utf16Decode units with
        | some s => .ok ⟨s, .Utf16Be⟩
        | none => .error .fromUtf16 := by
  simp only [TextData.tryFrom]
  rw [if_neg (by simp [UTF8_BOM, isPrefixOf_triple_head_ne 0xEF 0xBB 0xBF 0xFE _ (by omega)]),
    if_pos (show UTF16BE_BOM.isPrefixOf (0xFE :: 0xFF :: t) = true from
      (isPrefixOf_pair_iff 0xFE 0xFF _).mpr ⟨t, rfl⟩)]
  rfl

/-- Detection on a buffer that starts with the UTF-16-LE BOM. -/
theorem tryFrom_utf16le (t : List Nat) :
    TextData.tryFrom (0xFF :: 0xFE :: t) =
      match to_u16_le t with
      | none => .error .unevenByteSequence
      | some units =>
        match utf16Decode units with
        | some s => .ok ⟨s, .Utf16Le⟩
        | none => .error .fromUtf16 := by
  simp only [TextData.tryFrom]
  rw [if_neg (by simp [UTF8_BOM, isPrefixOf_triple_head_ne 0xEF 0xBB 0xBF 0xFF _ (by omega)]),
    if_neg (by simp [UTF16BE_BOM, isPrefixOf_pair_head_ne 0xFE 0xFF 0xFF _ (by omega)]),
    if_pos (show UTF16LE_BOM.isPrefixOf (0xFF :: 0xFE :: t) = true from
      (isPrefixOf_pair_iff 0xFF 0xFE _).mpr ⟨t, rfl⟩)]
  rfl

/-- Detection on a BOM-free buffer the heuristic calls binary. -/
theorem tryFrom_nobom_binary (bytes : List Nat)
    (h8 : List.isPrefixOf UTF8_BOM bytes = false)
    (hbe : List.isPrefixOf UTF16BE_BOM bytes = false)
    (hle : List.isPrefixOf UTF16LE_BOM bytes = false)
    (hbin : is_binary bytes = true) :
    TextData.tryFrom bytes = .error .binary := by
  simp only [TextData.tryFrom]
  rw [if_neg (by simp [h8]), if_neg (by simp [hbe]), if_neg (by simp [hle]), if_pos hbin]

/-- Detection on a BOM-free buffer the heuristic calls text. -/
theorem tryFrom_nobom_text (bytes : List Nat)
    (h8 : List.isPrefixOf UTF8_BOM bytes = false)
    (hbe : List.isPrefixOf UTF16BE_BOM bytes = false)
    (hle : List.isPrefixOf UTF16LE_BOM bytes = false)
    (hbin : is_binary bytes = false) :
    TextData.tryFrom bytes =
      match utf8Decode bytes with
      | some s => .ok ⟨s, .Utf8⟩
      | none => .error .fromUtf8 := by
  simp only [TextData.tryFrom]
  rw [if_neg (by simp [h8]), if_neg (by simp [hbe]), if_neg (by simp [hle]),
    if_neg (by simp [hbin])]

/-! ### Length and index characterisation of the unit packers -/

theorem to_u16_be_none_iff (input : List Nat) :
    to_u16_be input = none ↔ input.length % 2 = 1 := by
  unfold to_u16_be
  split
  · simp; omega
  · simp; omega

theorem to_u16_le_none_iff (input : List Nat) :
    to_u16_le input = none ↔ input.length % 2 = 1 := by
  unfold to_u16_le
  split
  · simp; omega
  · simp; omega

theorem toChunks2_length_even (input : List Nat) (h : input.length % 2 = 0) :
    (toChunks2 input).length = input.length / 2 := by
  induction input using toChunks2.induct with
  | case1 => rfl
  | case2 a => simp at h
  | case3 a b rest ih =>
    have h' : rest.length % 2 = 0 := by simp only [List.length_cons] at h; omega
    simp only [toChunks2, List.length_cons, ih h']
    omega

theorem chunks_be_getElem (input : List Nat) :
    ∀ i a b, input[2 * i]? = some a → input[2 * i + 1]? = some b →
      ((toChunks2 input).map u16_from_be_bytes)[i]? = some (a * 256 + b) := by
  induction input using toChunks2.induct with
  | case1 =>
    intro i a b ha hb
    rw [List.getElem?_eq_none_iff.mpr (by simp)] at ha
    exact Option.noConfusion ha
  | case2 x =>
    intro i a b ha hb
    rw [List.getElem?_eq_none_iff.mpr
      (by simp only [List.length_cons, List.length_nil]; omega)] at hb
    exact Option.noConfusion hb
  | case3 x y rest ih =>
    intro i a b ha hb
    cases i with
    | zero =>
      simp only [Nat.mul_zero, List.getElem?_cons_zero, Option.some.injEq] at ha
      simp only [Nat.mul_zero, Nat.zero_add, List.getElem?_cons_succ,
        List.getElem?_cons_zero, Option.some.injEq] at hb
      subst ha; subst hb
      simp [toChunks2, u16_from_be_bytes]
    | succ i =>
      have e1 : 2 * (i + 1) = 2 * i + 1 + 1 := by omega
      rw [e1, List.getElem?_cons_succ, List.getElem?_cons_succ] at ha
      have e2 : 2 * (i + 1) + 1 = 2 * i + 1 + 1 + 1 := by omega
      rw [e2, List.getElem?_cons_succ, List.getElem?_cons_succ] at hb
      simp only [toChunks2, List.map_cons, List.getElem?_cons_succ]
      exact ih i a b ha hb

theorem chunks_le_getElem (input : List Nat) :
    ∀ i a b, input[2 * i]? = some a → input[2 * i + 1]? = some b →
      ((toChunks2 input).map u16_from_le_bytes)[i]? = some (b * 256 + a) := by
  induction input using toChunks2.induct with
  | case1 =>
    intro i a b ha hb
    rw [List.getElem?_eq_none_iff.mpr (by simp)] at ha
    exact Option.noConfusion ha
  | case2 x =>
    intro i a b ha hb
    rw [List.getElem?_eq_none_iff.mpr
      (by simp only [List.length_cons, List.length_nil]; omega)] at hb
    exact Option.noConfusion hb
  | case3 x y rest ih =>
    intro i a b ha hb
    cases i with
    | zero =>
      simp only [Nat.mul_zero, List.getElem?_cons_zero, Option.some.injEq] at ha
      simp only [Nat.mul_zero, Nat.zero_add, List.getElem?_cons_succ,
        List.getElem?_cons_zero, Option.some.injEq] at hb
      subst ha; subst hb
      simp [toChunks2, u16_from_le_bytes]
    | succ i =>
      have e1 : 2 * (i + 1) = 2 * i + 1 + 1 := by omega
      rw [e1, List.getElem?_cons_succ, List.getElem?_cons_succ] at ha
      have e2 : 2 * (i + 1) + 1 = 2 * i + 1 + 1 + 1 := by omega
      rw [e2, List.getElem?_cons_succ, List.getElem?_cons_succ] at hb
      simp only [toChunks2, List.map_cons, List.getElem?_cons_succ]
      exact ih i a b ha hb

/-! ## The claims -/

/-- C1: for every byte sequence that detection (`TextData::try_from`)
classifies as one of the four text encodings, re-encoding the resulting
`TextData` (`FileContent::write` on the `Encoded` variant) produces exactly
the original byte sequence. -/
theorem claim1_write_after_detect (bytes : List Nat) (td : TextData)
    (hbytes : ∀ b ∈ bytes, b < 256)
    (hdet : TextData.tryFrom bytes = .ok td) :
    (FileContent.Encoded td).write = bytes := by
  simp only [TextData.tryFrom] at hdet
  by_cases h8 : List.isPrefixOf UTF8_BOM bytes = true
  · rcases (isPrefixOf_triple_iff 0xEF 0xBB 0xBF bytes).mp (by simpa [UTF8_BOM] using h8)
      with ⟨t', rfl⟩
    rw [if_pos h8] at hdet
    have hd : (0xEF :: 0xBB :: 0xBF :: t').drop UTF8_BOM_LENGTH = t' := rfl
    rw [hd] at hdet
    cases hdec : utf8Decode t' with
    | none => rw [hdec] at hdet; exact Except.noConfusion hdet
    | some s =>
      rw [hdec] at hdet
      have hdet' : Except.ok (ε := TextDataError) (⟨s, Encoding.Utf8Bom⟩ : TextData) =
          .ok td := hdet
      injection hdet' with h
      subst h
      simp only [FileContent.write, to_utf8_bom, UTF8_BOM, utf8Encode]
      rw [utf8Decode_to_encode t' s hdec]
      rfl
  · rw [if_neg h8] at hdet
    by_cases hbe : List.isPrefixOf UTF16BE_BOM bytes = true
    · rcases (isPrefixOf_pair_iff 0xFE 0xFF bytes).mp (by simpa [UTF16BE_BOM] using hbe)
        with ⟨t', rfl⟩
      rw [if_pos hbe] at hdet
      have hd : (0xFE :: 0xFF :: t').drop UTF16_BOM_LENGTH = t' := rfl
      rw [hd] at hdet
      have hbytes' : ∀ b ∈ t', b < 256 := fun b hb => hbytes b (by simp [hb])
      cases hu : to_u16_be t' with
      | none => rw [hu] at hdet; exact Except.noConfusion hdet
      | some units =>
        simp only [hu] at hdet
        cases hdec : utf16Decode units with
        | none => simp only [hdec] at hdet; exact Except.noConfusion hdet
        | some s =>
          simp only [hdec] at hdet
          have hdet' : Except.ok (ε := TextDataError) (⟨s, Encoding.Utf16Be⟩ : TextData) =
              .ok td := hdet
          injection hdet' with h
          subst h
          obtain ⟨heven, hchunks⟩ := (to_u16_be_eq_some t' units).mp hu
          have hunits : ∀ u ∈ units, u < 65536 := by
            rw [← hchunks]; exact chunks_be_lt t' hbytes'
          simp only [FileContent.write, to_utf16_be, UTF16BE_BOM]
          rw [← List.flatMap_assoc, utf16Decode_to_encode units s hdec hunits,
            ← hchunks, chunks_be_flatMap t' heven hbytes']
          rfl
    · rw [if_neg hbe] at hdet
      by_cases hle : List.isPrefixOf UTF16LE_BOM bytes = true
      · rcases (isPrefixOf_pair_iff 0xFF 0xFE bytes).mp (by simpa [UTF16LE_BOM] using hle)
          with ⟨t', rfl⟩
        rw [if_pos hle] at hdet
        have hd : (0xFF :: 0xFE :: t').drop UTF16_BOM_LENGTH = t' := rfl
        rw [hd] at hdet
        have hbytes' : ∀ b ∈ t', b < 256 := fun b hb => hbytes b (by simp [hb])
        cases hu : to_u16_le t' with
        | none => rw [hu] at hdet; exact Except.noConfusion hdet
        | some units =>
          simp only [hu] at hdet
          cases hdec : utf16Decode units with
          | none => simp only [hdec] at hdet; exact Except.noConfusion hdet
          | some s =>
            simp only [hdec] at hdet
            have hdet' : Except.ok (ε := TextDataError) (⟨s, Encoding.Utf16Le⟩ : TextData) =
                .ok td := hdet
            injection hdet' with h
            subst h
            obtain ⟨heven, hchunks⟩ := (to_u16_le_eq_some t' units).mp hu
            have hunits : ∀ u ∈ units, u < 65536 := by
              rw [← hchunks]; exact chunks_le_lt t' hbytes'
            simp only [FileContent.write, to_utf16_le, UTF16LE_BOM]
            rw [← List.flatMap_assoc, utf16Decode_to_encode units s hdec hunits,
              ← hchunks, chunks_le_flatMap t' heven hbytes']
            rfl
      · rw [if_neg hle] at hdet
        by_cases hbin : is_binary bytes = true
        · rw [if_pos hbin] at hdet; exact Except.noConfusion hdet
        · rw [if_neg hbin] at hdet
          cases hdec : utf8Decode bytes with
          | none => rw [hdec] at hdet; exact Except.noConfusion hdet
          | some s =>
            rw [hdec] at hdet
            have hdet' : Except.ok (ε := TextDataError) (⟨s, Encoding.Utf8⟩ : TextData) =
                .ok td := hdet
            injection hdet' with h
            subst h
            simp only [FileContent.write, utf8Encode]
            exact utf8Decode_to_encode bytes s hdec

/-- Witness for C1 at the concrete surrogate-pair buffer
`FE FF D8 3D DE 0A` (one supplementary character, UTF-16-BE). -/
theorem claim1_write_after_detect_witness :
    (FileContent.Encoded ⟨[0x1F60A], .Utf16Be⟩).write = [0xFE, 0xFF, 0xD8, 0x3D, 0xDE, 0x0A] :=
  claim1_write_after_detect [0xFE, 0xFF, 0xD8, 0x3D, 0xDE, 0x0A] ⟨[0x1F60A], .Utf16Be⟩
    (by decide) (by decide)

/-- C2 counterexample: the string consisting of the single scalar value 0
(a valid Unicode string), encoded with `Utf8`, yields the byte `00`, which
detection classifies as binary — not as `(t, Utf8)`. -/
theorem claim2_roundtrip_counterexample :
    ScalarValue 0 ∧
    (FileContent.Encoded ⟨[0], .Utf8⟩).write = [0] ∧
    TextData.tryFrom ((FileContent.Encoded ⟨[0], .Utf8⟩).write) = .error .binary ∧
    decide (TextData.tryFrom ((FileContent.Encoded ⟨[0], .Utf8⟩).write) =
      .ok ⟨[0], .Utf8⟩) = false := by
  refine ⟨by decide, rfl, rfl, rfl⟩

/-- C2 (amended): for every Unicode string `t` and encoding `e`, encoding
`t` with `e` and re-running detection yields exactly `(t, e)` — except
that for `e = Utf8` this additionally requires that `t` not begin with
U+FEFF (otherwise the encoded bytes start with the UTF-8 BOM and are
detected as `Utf8Bom`) and that the UTF-8 encoding of `t` contain no null
byte among its first 8000 bytes (otherwise the buffer is classified as
binary). -/
theorem claim2_encode_then_detect (t : List Nat) (e : Encoding)
    (hv : ∀ c ∈ t, ScalarValue c)
    (hU : e = .Utf8 → t.head? ≠ some 0xFEFF ∧ 0 ∉ (t.flatMap utf8EncodeChar).take 8000) :
    TextData.tryFrom ((FileContent.Encoded ⟨t, e⟩).write) = .ok ⟨t, e⟩ := by
  cases e with
  | Utf8 =>
    obtain ⟨hhead, hnull⟩ := hU rfl
    have h8 : List.isPrefixOf UTF8_BOM (t.flatMap utf8EncodeChar) = false := by
      rw [Bool.eq_false_iff]
      intro hp
      exact hhead (utf8Encode_bom_head t hv hp)
    obtain ⟨hbe, hle⟩ := not_utf16_bom_of_le _ (utf8Encode_le t hv)
    have hbin : is_binary (t.flatMap utf8EncodeChar) = false := by
      rw [Bool.eq_false_iff]
      intro hb
      exact hnull ((is_binary_iff _).mp hb)
    simp only [FileContent.write, utf8Encode, TextData.tryFrom]
    rw [if_neg (by simp [h8]), if_neg (by simp [hbe]), if_neg (by simp [hle]),
      if_neg (by simp [hbin]), utf8Encode_decode t hv]
  | Utf8Bom =>
    have hw : (FileContent.Encoded ⟨t, .Utf8Bom⟩).write =
        0xEF :: 0xBB :: 0xBF :: t.flatMap utf8EncodeChar := rfl
    rw [hw]
    simp only [TextData.tryFrom]
    rw [if_pos (show UTF8_BOM.isPrefixOf (0xEF :: 0xBB :: 0xBF :: t.flatMap utf8EncodeChar) =
      true from (isPrefixOf_triple_iff 0xEF 0xBB 0xBF _).mpr ⟨_, rfl⟩)]
    have hd : (0xEF :: 0xBB :: 0xBF :: t.flatMap utf8EncodeChar).drop UTF8_BOM_LENGTH =
        t.flatMap utf8EncodeChar := rfl
    rw [hd, utf8Encode_decode t hv]
  | Utf16Be =>
    have hw : (FileContent.Encoded ⟨t, .Utf16Be⟩).write =
        0xFE :: 0xFF :: t.flatMap (fun c => (encode_utf16_char c).flatMap u16_to_be_bytes) := rfl
    rw [hw]
    simp only [TextData.tryFrom]
    rw [if_neg (by simp [UTF8_BOM, isPrefixOf_triple_head_ne 0xEF 0xBB 0xBF 0xFE _ (by omega)]),
      if_pos (show UTF16BE_BOM.isPrefixOf (0xFE :: 0xFF ::
        t.flatMap (fun c => (encode_utf16_char c).flatMap u16_to_be_bytes)) = true from
        (isPrefixOf_pair_iff 0xFE 0xFF _).mpr ⟨_, rfl⟩)]
    have hd : (0xFE :: 0xFF ::
        t.flatMap (fun c => (encode_utf16_char c).flatMap u16_to_be_bytes)).drop
          UTF16_BOM_LENGTH =
        t.flatMap (fun c => (encode_utf16_char c).flatMap u16_to_be_bytes) := rfl
    rw [hd, ← List.flatMap_assoc,
      to_u16_be_flatMap (t.flatMap encode_utf16_char) (utf16Encode_units_lt t hv)]
    simp only [utf16Encode_decode t hv]
  | Utf16Le =>
    have hw : (FileContent.Encoded ⟨t, .Utf16Le⟩).write =
        0xFF :: 0xFE :: t.flatMap (fun c => (encode_utf16_char c).flatMap u16_to_le_bytes) := rfl
    rw [hw]
    simp only [TextData.tryFrom]
    rw [if_neg (by simp [UTF8_BOM, isPrefixOf_triple_head_ne 0xEF 0xBB 0xBF 0xFF _ (by omega)]),
      if_neg (by simp [UTF16BE_BOM, isPrefixOf_pair_head_ne 0xFE 0xFF 0xFF _ (by omega)]),
      if_pos (show UTF16LE_BOM.isPrefixOf (0xFF :: 0xFE ::
        t.flatMap (fun c => (encode_utf16_char c).flatMap u16_to_le_bytes)) = true from
        (isPrefixOf_pair_iff 0xFF 0xFE _).mpr ⟨_, rfl⟩)]
    have hd : (0xFF :: 0xFE ::
        t.flatMap (fun c => (encode_utf16_char c).flatMap u16_to_le_bytes)).drop
          UTF16_BOM_LENGTH =
        t.flatMap (fun c => (encode_utf16_char c).flatMap u16_to_le_bytes) := rfl
    rw [hd, ← List.flatMap_assoc,
      to_u16_le_flatMap (t.flatMap encode_utf16_char) (utf16Encode_units_lt t hv)]
    simp only [utf16Encode_decode t hv]

/-- Witness for the amended C2 at `t = "He"`, `e = Utf8`. -/
theorem claim2_encode_then_detect_witness :
    TextData.tryFrom ((FileContent.Encoded ⟨[0x48, 0x65], .Utf8⟩).write) =
      .ok ⟨[0x48, 0x65], .Utf8⟩ :=
  claim2_encode_then_detect [0x48, 0x65] .Utf8 (by decide)
    (fun _ => ⟨by decide, by decide⟩)

/-- Written from the spec, §4.4 "Text Decoder": the five-step priority
chain, with "bytes start with the prefix" rendered as equality of the
initial segment. -/
def detectSpec (bytes : List Nat) : Except TextDataError TextData :=
  if bytes.take 3 = [0xEF, 0xBB, 0xBF] then
    match utf8Decode (bytes.drop 3) with
    | some text => .ok ⟨text, .Utf8Bom⟩
    | none => .error .fromUtf8
  else if bytes.take 2 = [0xFE, 0xFF] then
    match to_u16_be (bytes.drop 2) with
    | none => .error .unevenByteSequence
    | some units =>
      match utf16Decode units with
      | some text => .ok ⟨text, .Utf16Be⟩
      | none => .error .fromUtf16
  else if bytes.take 2 = [0xFF, 0xFE] then
    match to_u16_le (bytes.drop 2) with
    | none => .error .unevenByteSequence
    | some units =>
      match utf16Decode units with
      | some text => .ok ⟨text, .Utf16Le⟩
      | none => .error .fromUtf16
  else if is_binary bytes then
    .error .binary
  else
    match utf8Decode bytes with
    | some text => .ok ⟨text, .Utf8⟩
    | none => .error .fromUtf8

/-- C3: detection follows the strict first-match priority of the spec —
UTF-8 BOM, then UTF-16-BE BOM, then UTF-16-LE BOM, then the binary
heuristic, then plain UTF-8 — with the stated action in each step:
`TextData.tryFrom` coincides with the step-by-step `detectSpec`. -/
theorem claim3_detect_priority (bytes : List Nat) :
    TextData.tryFrom bytes = detectSpec bytes := by
  simp only [TextData.tryFrom, detectSpec]
  by_cases h8 : List.isPrefixOf UTF8_BOM bytes = true
  · rcases (isPrefixOf_triple_iff 0xEF 0xBB 0xBF bytes).mp (by simpa [UTF8_BOM] using h8)
      with ⟨t, rfl⟩
    rw [if_pos h8, if_pos ((take_triple_iff 0xEF 0xBB 0xBF _).mpr ⟨t, rfl⟩)]
    rfl
  · have h8' : ¬(bytes.take 3 = [0xEF, 0xBB, 0xBF]) := by
      intro hc
      rcases (take_triple_iff 0xEF 0xBB 0xBF bytes).mp hc with ⟨t, rfl⟩
      exact h8 ((isPrefixOf_triple_iff 0xEF 0xBB 0xBF _).mpr ⟨t, rfl⟩)
    rw [if_neg h8, if_neg h8']
    by_cases hbe : List.isPrefixOf UTF16BE_BOM bytes = true
    · rcases (isPrefixOf_pair_iff 0xFE 0xFF bytes).mp (by simpa [UTF16BE_BOM] using hbe)
        with ⟨t, rfl⟩
      rw [if_pos hbe, if_pos ((take_pair_iff 0xFE 0xFF _).mpr ⟨t, rfl⟩)]
      rfl
    · have hbe' : ¬(bytes.take 2 = [0xFE, 0xFF]) := by
        intro hc
        rcases (take_pair_iff 0xFE 0xFF bytes).mp hc with ⟨t, rfl⟩
        exact hbe ((isPrefixOf_pair_iff 0xFE 0xFF _).mpr ⟨t, rfl⟩)
      rw [if_neg hbe, if_neg hbe']
      by_cases hle : List.isPrefixOf UTF16LE_BOM bytes = true
      · rcases (isPrefixOf_pair_iff 0xFF 0xFE bytes).mp (by simpa [UTF16LE_BOM] using hle)
          with ⟨t, rfl⟩
        rw [if_pos hle, if_pos ((take_pair_iff 0xFF 0xFE _).mpr ⟨t, rfl⟩)]
        rfl
      · have hle' : ¬(bytes.take 2 = [0xFF, 0xFE]) := by
          intro hc
          rcases (take_pair_iff 0xFF 0xFE bytes).mp hc with ⟨t, rfl⟩
          exact hle ((isPrefixOf_pair_iff 0xFF 0xFE _).mpr ⟨t, rfl⟩)
        rw [if_neg hle, if_neg hle']

/-- C4: a BOM commits the buffer to that encoding's validation path — the
outcome is success under that very encoding or that path's validation
error(s), never the Binary classification and never a decode under any
other encoding; a failed validation surfaces as the corresponding error. -/
theorem claim4_bom_commits_validation (bytes : List Nat) :
    (List.isPrefixOf UTF8_BOM bytes = true →
      ((∃ s, TextData.tryFrom bytes = .ok ⟨s, .Utf8Bom⟩) ∨
        TextData.tryFrom bytes = .error .fromUtf8) ∧
      (utf8Decode (bytes.drop UTF8_BOM_LENGTH) = none →
        TextData.tryFrom bytes = .error .fromUtf8)) ∧
    (List.isPrefixOf UTF16BE_BOM bytes = true →
      ((∃ s, TextData.tryFrom bytes = .ok ⟨s, .Utf16Be⟩) ∨
        TextData.tryFrom bytes = .error .fromUtf16 ∨
        TextData.tryFrom bytes = .error .unevenByteSequence) ∧
      (to_u16_be (bytes.drop UTF16_BOM_LENGTH) = none →
        TextData.tryFrom bytes = .error .unevenByteSequence) ∧
      (∀ units, to_u16_be (bytes.drop UTF16_BOM_LENGTH) = some units →
        utf16Decode units = none → TextData.tryFrom bytes = .error .fromUtf16)) ∧
    (List.isPrefixOf UTF16LE_BOM bytes = true →
      ((∃ s, TextData.tryFrom bytes = .ok ⟨s, .Utf16Le⟩) ∨
        TextData.tryFrom bytes = .error .fromUtf16 ∨
        TextData.tryFrom bytes = .error .unevenByteSequence) ∧
      (to_u16_le (bytes.drop UTF16_BOM_LENGTH) = none →
        TextData.tryFrom bytes = .error .unevenByteSequence) ∧
      (∀ units, to_u16_le (bytes.drop UTF16_BOM_LENGTH) = some units →
        utf16Decode units = none → TextData.tryFrom bytes = .error .fromUtf16)) := by
  refine ⟨?_, ?_, ?_⟩
  · intro h8
    rcases (isPrefixOf_triple_iff 0xEF 0xBB 0xBF bytes).mp (by simpa [UTF8_BOM] using h8)
      with ⟨t, rfl⟩
    have hd : (0xEF :: 0xBB :: 0xBF :: t).drop UTF8_BOM_LENGTH = t := rfl
    rw [tryFrom_utf8bom, hd]
    constructor
    · cases hdec : utf8Decode t with
      | none => exact Or.inr rfl
      | some s => exact Or.inl ⟨s, rfl⟩
    · intro hnone; rw [hnone]
  · intro hbe
    rcases (isPrefixOf_pair_iff 0xFE 0xFF bytes).mp (by simpa [UTF16BE_BOM] using hbe)
      with ⟨t, rfl⟩
    have hd : (0xFE :: 0xFF :: t).drop UTF16_BOM_LENGTH = t := rfl
    rw [tryFrom_utf16be, hd]
    refine ⟨?_, ?_, ?_⟩
    · cases hu : to_u16_be t with
      | none => exact Or.inr (Or.inr rfl)
      | some units =>
        cases hdec : utf16Decode units with
        | none => exact Or.inr (Or.inl (by simp [hdec]))
        | some s => exact Or.inl ⟨s, by simp [hdec]⟩
    · intro hnone; rw [hnone]
    · intro units hu hdec; rw [hu]; simp [hdec]
  · intro hle
    rcases (isPrefixOf_pair_iff 0xFF 0xFE bytes).mp (by simpa [UTF16LE_BOM] using hle)
      with ⟨t, rfl⟩
    have hd : (0xFF :: 0xFE :: t).drop UTF16_BOM_LENGTH = t := rfl
    rw [tryFrom_utf16le, hd]
    refine ⟨?_, ?_, ?_⟩
    · cases hu : to_u16_le t with
      | none => exact Or.inr (Or.inr rfl)
      | some units =>
        cases hdec : utf16Decode units with
        | none => exact Or.inr (Or.inl (by simp [hdec]))
        | some s => exact Or.inl ⟨s, by simp [hdec]⟩
    · intro hnone; rw [hnone]
    · intro units hu hdec; rw [hu]; simp [hdec]

/-- Witness for C4: the UTF-8-BOM buffer `EF BB BF C1 80` (overlong body)
fails with the malformed-UTF-8 error. -/
theorem claim4_bom_commits_validation_witness :
    TextData.tryFrom [0xEF, 0xBB, 0xBF, 0xC1, 0x80] = .error .fromUtf8 :=
  ((claim4_bom_commits_validation [0xEF, 0xBB, 0xBF, 0xC1, 0x80]).1 (by decide)).2 (by decide)

/-- C5: a buffer whose first two bytes are `FF FE` is never classified as
`Utf8`, `Utf8Bom` or binary, regardless of its remaining contents: the
outcome is a `Utf16Le`-tagged text or a UTF-16 / uneven-length error. -/
theorem claim5_le_bom_never_misclassified (bytes : List Nat)
    (h : List.isPrefixOf UTF16LE_BOM bytes = true) :
    ((∃ s, TextData.tryFrom bytes = .ok ⟨s, .Utf16Le⟩) ∨
      TextData.tryFrom bytes = .error .fromUtf16 ∨
      TextData.tryFrom bytes = .error .unevenByteSequence) ∧
    (∀ td, TextData.tryFrom bytes = .ok td → td.encoding = .Utf16Le) ∧
    (∀ e, TextData.tryFrom bytes = .error e →
      e = .fromUtf16 ∨ e = .unevenByteSequence) := by
  rcases (isPrefixOf_pair_iff 0xFF 0xFE bytes).mp (by simpa [UTF16LE_BOM] using h)
    with ⟨t, rfl⟩
  rw [tryFrom_utf16le]
  cases hu : to_u16_le t with
  | none =>
    refine ⟨Or.inr (Or.inr rfl), ?_, ?_⟩
    · intro td htd; exact Except.noConfusion htd
    · intro e he
      injection he with h1
      exact Or.inr h1.symm
  | some units =>
    cases hdec : utf16Decode units with
    | none =>
      refine ⟨Or.inr (Or.inl (by simp [hdec])), ?_, ?_⟩
      · intro td htd; simp [hdec] at htd
      · intro e he; simp [hdec] at he; exact Or.inl he.symm
    | some s =>
      refine ⟨Or.inl ⟨s, by simp [hdec]⟩, ?_, ?_⟩
      · intro td htd
        simp only [hdec] at htd
        injection htd with h1
        rw [← h1]
      · intro e he; simp [hdec] at he

/-- Witness for C5 at the buffer `FF FE 48 00` (contains a null byte). -/
theorem claim5_le_bom_never_misclassified_witness :
    (∃ s, TextData.tryFrom [0xFF, 0xFE, 0x48, 0x00] = .ok ⟨s, .Utf16Le⟩) ∨
      TextData.tryFrom [0xFF, 0xFE, 0x48, 0x00] = .error .fromUtf16 ∨
      TextData.tryFrom [0xFF, 0xFE, 0x48, 0x00] = .error .unevenByteSequence :=
  (claim5_le_bom_never_misclassified [0xFF, 0xFE, 0x48, 0x00] (by decide)).1

/-- C6: on a BOM-free valid-UTF-8 buffer, a null byte among the first
8000 bytes (1-based positions 1..8000) forces the Binary classification;
no null byte there yields `Utf8`-tagged text even if nulls occur later;
and `is_binary` holds exactly when a zero byte occurs among the first
8000 bytes. -/
theorem claim6_binary_threshold (bytes s : List Nat)
    (h8 : List.isPrefixOf UTF8_BOM bytes = false)
    (hbe : List.isPrefixOf UTF16BE_BOM bytes = false)
    (hle : List.isPrefixOf UTF16LE_BOM bytes = false)
    (hv : utf8Decode bytes = some s) :
    (0 ∉ bytes.take BINARY_DETECTION_THRESHOLD →
      TextData.tryFrom bytes = .ok ⟨s, .Utf8⟩) ∧
    (0 ∈ bytes.take BINARY_DETECTION_THRESHOLD →
      TextData.tryFrom bytes = .error .binary) ∧
    (is_binary bytes = true ↔ 0 ∈ bytes.take BINARY_DETECTION_THRESHOLD) := by
  refine ⟨?_, ?_, is_binary_iff bytes⟩
  · intro hnull
    have hbin : is_binary bytes = false := by
      rw [Bool.eq_false_iff]
      intro hb
      exact hnull ((is_binary_iff bytes).mp hb)
    rw [tryFrom_nobom_text bytes h8 hbe hle hbin, hv]
  · intro hnull
    exact tryFrom_nobom_binary bytes h8 hbe hle ((is_binary_iff bytes).mpr hnull)

/-- Witness for C6 at the one-byte buffer `41` ("A"). -/
theorem claim6_binary_threshold_witness :
    TextData.tryFrom [0x41] = .ok ⟨[0x41], .Utf8⟩ :=
  (claim6_binary_threshold [0x41] [0x41] (by decide) (by decide) (by decide)
    (by decide)).1 (by decide)

/-- C7: a UTF-16-BOM-prefixed buffer with odd post-BOM length fails with
the uneven-length error; the packers `to_u16_be` / `to_u16_le` fail
exactly on odd input length (with no partial output, the error being the
whole result), map even input — including the empty one — to the units
obtained by reinterpreting consecutive byte pairs in the given byte
order, preserving order. -/
theorem claim7_uneven_utf16 :
    (∀ bytes : List Nat,
      List.isPrefixOf UTF16BE_BOM bytes = true ∨ List.isPrefixOf UTF16LE_BOM bytes = true →
      (bytes.length - UTF16_BOM_LENGTH) % 2 = 1 →
      TextData.tryFrom bytes = .error .unevenByteSequence) ∧
    (∀ input : List Nat,
      (to_u16_be input = none ↔ input.length % 2 = 1) ∧
      (to_u16_le input = none ↔ input.length % 2 = 1)) ∧
    (∀ input us : List Nat, to_u16_be input = some us →
      us.length = input.length / 2 ∧
      ∀ i a b, input[2 * i]? = some a → input[2 * i + 1]? = some b →
        us[i]? = some (a * 256 + b)) ∧
    (∀ input us : List Nat, to_u16_le input = some us →
      us.length = input.length / 2 ∧
      ∀ i a b, input[2 * i]? = some a → input[2 * i + 1]? = some b →
        us[i]? = some (b * 256 + a)) ∧
    to_u16_be ([] : List Nat) = some [] ∧ to_u16_le ([] : List Nat) = some [] := by
  refine ⟨?_, fun input => ⟨to_u16_be_none_iff input, to_u16_le_none_iff input⟩,
    ?_, ?_, rfl, rfl⟩
  · intro bytes hbom hodd
    rcases hbom with h | h
    · rcases (isPrefixOf_pair_iff 0xFE 0xFF bytes).mp (by simpa [UTF16BE_BOM] using h)
        with ⟨t, rfl⟩
      have hlen : t.length % 2 = 1 := by
        simp only [List.length_cons, UTF16_BOM_LENGTH] at hodd
        omega
      rw [tryFrom_utf16be, (to_u16_be_none_iff t).mpr hlen]
    · rcases (isPrefixOf_pair_iff 0xFF 0xFE bytes).mp (by simpa [UTF16LE_BOM] using h)
        with ⟨t, rfl⟩
      have hlen : t.length % 2 = 1 := by
        simp only [List.length_cons, UTF16_BOM_LENGTH] at hodd
        omega
      rw [tryFrom_utf16le, (to_u16_le_none_iff t).mpr hlen]
  · intro input us hu
    obtain ⟨heven, hchunks⟩ := (to_u16_be_eq_some input us).mp hu
    subst hchunks
    refine ⟨by rw [List.length_map, toChunks2_length_even input heven], ?_⟩
    intro i a b ha hb
    exact chunks_be_getElem input i a b ha hb
  · intro input us hu
    obtain ⟨heven, hchunks⟩ := (to_u16_le_eq_some input us).mp hu
    subst hchunks
    refine ⟨by rw [List.length_map, toChunks2_length_even input heven], ?_⟩
    intro i a b ha hb
    exact chunks_le_getElem input i a b ha hb

/-- Witness for C7: the buffer `FE FF 00` (odd post-BOM length). -/
theorem claim7_uneven_utf16_witness :
    TextData.tryFrom [0xFE, 0xFF, 0x00] = .error .unevenByteSequence :=
  claim7_uneven_utf16.1 [0xFE, 0xFF, 0x00] (Or.inl (by decide)) (by decide)

/-- C8: the empty byte buffer decodes to the empty string tagged `Utf8`;
in particular it is neither an error nor the Binary classification, and
the binary heuristic is false on it. -/
theorem claim8_empty_input :
    TextData.tryFrom [] = .ok ⟨[], .Utf8⟩ ∧ is_binary [] = false :=
  ⟨rfl, rfl⟩

/-- C9: encoding is total — `FileContent.write` is a plain function on
every string and encoding — and produces the stated shapes: `Utf8` the raw
UTF-8 bytes with no prefix, `Utf8Bom` the BOM then the UTF-8 bytes,
`Utf16Be` / `Utf16Le` their BOM then each character's UTF-16 unit(s) in
the indicated byte order, where a character outside the basic plane
yields a surrogate pair of two units. -/
theorem claim9_encoder_total_shape (t : List Nat) (hv : ∀ c ∈ t, ScalarValue c) :
    (FileContent.Encoded ⟨t, .Utf8⟩).write = t.flatMap utf8EncodeChar ∧
    (FileContent.Encoded ⟨t, .Utf8Bom⟩).write = UTF8_BOM ++ t.flatMap utf8EncodeChar ∧
    (FileContent.Encoded ⟨t, .Utf16Be⟩).write =
      UTF16BE_BOM ++ (t.flatMap encode_utf16_char).flatMap u16_to_be_bytes ∧
    (FileContent.Encoded ⟨t, .Utf16Le⟩).write =
      UTF16LE_BOM ++ (t.flatMap encode_utf16_char).flatMap u16_to_le_bytes ∧
    ∀ c ∈ t, (c < 0x10000 → encode_utf16_char c = [c]) ∧
      (0x10000 ≤ c → ∃ hi lo, encode_utf16_char c = [hi, lo] ∧
        0xD800 ≤ hi ∧ hi ≤ 0xDBFF ∧ 0xDC00 ≤ lo ∧ lo ≤ 0xDFFF ∧
        0x10000 + (hi - 0xD800) * 0x400 + (lo - 0xDC00) = c) := by
  refine ⟨rfl, rfl, ?_, ?_, ?_⟩
  · simp only [FileContent.write, to_utf16_be]
    rw [List.flatMap_assoc]
  · simp only [FileContent.write, to_utf16_le]
    rw [List.flatMap_assoc]
  · intro c hc
    rcases hv c hc with ⟨hlt, hsur⟩
    constructor
    · intro hsmall
      simp only [encode_utf16_char, if_pos hsmall]
    · intro hbig
      refine ⟨0xD800 + (c - 0x10000) / 0x400, 0xDC00 + (c - 0x10000) % 0x400,
        by simp only [encode_utf16_char, if_neg (show ¬c < 0x10000 by omega)],
        by omega, by omega, by omega, by omega, by omega⟩

/-- Witness for C9 at `t = "a🌍"` (one basic-plane and one supplementary
character), for the `Utf16Be` shape. -/
theorem claim9_encoder_total_shape_witness :
    (FileContent.Encoded ⟨[0x61, 0x1F30D], .Utf16Be⟩).write =
      UTF16BE_BOM ++ ([0x61, 0x1F30D].flatMap encode_utf16_char).flatMap u16_to_be_bytes :=
  (claim9_encoder_total_shape [0x61, 0x1F30D] (by decide)).2.2.1

/-- C10: at the `File::new` interface no detection error surfaces — every
`TextData::try_from` error (malformed UTF-8, malformed UTF-16, uneven
length, or the Binary signal) makes `File::new` store the original bytes
verbatim as `FileContent::Binary`, while a successful detection is stored
as `Encoded`. -/
theorem claim10_new_swallows_errors (bytes : List Nat) :
    (∀ e, TextData.tryFrom bytes = .error e → File.newContent bytes = .Binary bytes) ∧
    (∀ td, TextData.tryFrom bytes = .ok td → File.newContent bytes = .Encoded td) := by
  constructor
  · intro e he; simp [File.newContent, he]
  · intro td htd; simp [File.newContent, htd]

/-- Witness for C10: the BOM-prefixed malformed buffer `EF BB BF C1` is
stored verbatim as binary content even though its detection error is a
malformed-UTF-8 error, not the Binary signal. -/
theorem claim10_new_swallows_errors_witness :
    File.newContent [0xEF, 0xBB, 0xBF, 0xC1] = .Binary [0xEF, 0xBB, 0xBF, 0xC1] :=
  (claim10_new_swallows_errors [0xEF, 0xBB, 0xBF, 0xC1]).1 .fromUtf8 (by decide)

end FileContentRs
